import Mathlib

/-!
Verification of the DSS classifier / transformation-planner core.

This file gives a shallow embedding of the classification, planning,
conflict-resolution and conversion logic of
`meta/scripts/dss_autoformat.py` and `meta/scripts/convert_to_dss.py`,
and proves (or refutes) the spec's testable properties about it.

Paths are modelled the way `pathlib` stores them: a relative path is its
list of components (`List String`); a planned destination is a pair of a
parent folder and a file name.  Python's `Path.match` (right-anchored,
component-wise `fnmatch`, where `**` matches exactly one component, as in
CPython < 3.13) and `Path.stem` / `Path.suffix` (split at the last dot,
provided it is neither the first nor the last character of the name) are
embedded directly.
-/

namespace DSS

/-- Python `str.lower` restricted to the ASCII range (all strings the
scripts compare are ASCII). -/
def strLower (s : String) : String := String.mk (s.data.map Char.toLower)

/-- Characters Python's default `str.strip` / `str.lstrip` remove. -/
def isPyWhitespace (c : Char) : Bool :=
  c = ' ' || c = '\t' || c = '\n' || c = '\x0d' || c = '\x0b' || c = '\x0c'

/-- Python `str.lstrip()`. -/
def pyLstrip (s : String) : String := String.mk (s.data.dropWhile isPyWhitespace)

/-- Python `str.strip()`. -/
def pyStrip (s : String) : String :=
  String.mk (((s.data.dropWhile isPyWhitespace).reverse.dropWhile isPyWhitespace).reverse)

/-- Python `needle in hay` on strings: substring containment. -/
def containsSub (hay needle : String) : Bool :=
  (hay.data.tails).any (fun t => needle.data.isPrefixOf t)

/-- Python `str.startswith`. -/
def pyStartsWith (s pre : String) : Bool := pre.data.isPrefixOf s.data

/-! ## fnmatch and `Path.match`

The ignore/classification patterns of the scripts only use the `*`
wildcard (`**` is two stars, which under `fnmatch` collapses to "match
anything within one component").  `fnmatchAux` is the textbook
backtracking matcher, made structural with fuel; fuel
`pattern.length + name.length + 1` always suffices because every
recursive call shrinks `pattern.length + name.length`. -/

def fnmatchAux : Nat → List Char → List Char → Bool
  | 0, _, _ => false
  | _ + 1, [], ns => ns.isEmpty
  | fuel + 1, '*' :: ps, ns =>
    fnmatchAux fuel ps ns ||
      (match ns with
       | [] => false
       | _ :: ns1 => fnmatchAux fuel ('*' :: ps) ns1)
  | fuel + 1, p :: ps, ns =>
    match ns with
    | [] => false
    | n :: ns1 => p = n && fnmatchAux fuel ps ns1

/-- `fnmatch.fnmatchcase` for the pattern subset the scripts use. -/
def fnmatchB (pat name : String) : Bool :=
  fnmatchAux (pat.data.length + name.data.length + 1) pat.data name.data

/-- Split a character list at every occurrence of `sep`
(Python `str.split(sep)`). -/
def splitCharsOn (sep : Char) : List Char → List (List Char)
  | [] => [[]]
  | c :: rest =>
    let r := splitCharsOn sep rest
    if c = sep then [] :: r
    else
      match r with
      | [] => [[c]]
      | h :: t => (c :: h) :: t

/-- Splitting a glob pattern into components, as pathlib's
`parse_parts` does (empty and `.` components are dropped). -/
def patternParts (pat : String) : List String :=
  ((splitCharsOn '/' pat.data).map String.mk).filter (fun p => p ≠ "" && p ≠ ".")

/-- CPython (< 3.13) `PurePath.match` for a relative pattern: the
pattern components must match the final components of the path, one
component each, right-anchored; a pattern with more components than the
path never matches. -/
def pathMatch (parts : List String) (pat : String) : Bool :=
  let pp := patternParts pat
  if pp.length > parts.length then false
  else (parts.reverse.zip pp.reverse).all (fun q => fnmatchB q.2 q.1)

/-- Index of the last `'.'` in a character list (Python `str.rfind('.')`,
with `none` for "not found"). -/
def rfindDot : List Char → Option Nat
  | [] => none
  | c :: cs =>
    match rfindDot cs with
    | some i => some (i + 1)
    | none => if c = '.' then some 0 else none

/-- pathlib's stem/suffix split of a file name: split at the last dot
provided it is neither the first character nor the last one; otherwise
the suffix is empty. -/
def splitNameChars (cs : List Char) : List Char × List Char :=
  match rfindDot cs with
  | some i => if 0 < i ∧ i + 1 < cs.length then (cs.take i, cs.drop i) else (cs, [])
  | none => (cs, [])

/-- `(Path name).stem` and `(Path name).suffix` as a pair. -/
def splitName (name : String) : String × String :=
  let p := splitNameChars name.data
  (String.mk p.1, String.mk p.2)

/-- `(Path name).suffix`. -/
def suffixOf (name : String) : String := (splitName name).2

/-- `(Path name).stem`. -/
def stemOf (name : String) : String := (splitName name).1

/-- Last component of a relative path, Python `Path(p).name`
(empty for the empty path). -/
def lastComp (parts : List String) : String := parts.getLastD ""

/-- Python `path.as_posix()` for a relative path given by components. -/
def asPosix (parts : List String) : String := String.intercalate "/" parts

/-! ## Decimal rendering of a counter

Python renders the conflict counter with `f"..._{counter}..."`, i.e. its
decimal digits.  `toDecimalAux` is the usual div-10 loop, made structural
with fuel (`n` itself always suffices since `n / 10 < n`). -/

def toDecimalAux : Nat → Nat → List Char
  | 0, _ => []
  | fuel + 1, n => if n = 0 then [] else toDecimalAux fuel (n / 10) ++ [Nat.digitChar (n % 10)]

/-- Decimal digit characters of `n` (Python `str(n)` for a natural). -/
def natToDecimalChars (n : Nat) : List Char :=
  if n = 0 then ['0'] else toDecimalAux (n + 1) n

/-- Python `str(n)`. -/
def natToDecimal (n : Nat) : String := String.mk (natToDecimalChars n)

/-! ## Destination paths and the conflict resolver

`dss_autoformat.py` plans destinations of the form
`Path(category) / source_path.name`; a destination is therefore a parent
folder plus a file name.  `_resolve_naming_conflict` keeps appending
`_{counter}` between the proposed path's stem and suffix until the path
is no longer among the already-planned destinations.  The `while` loop is
embedded with fuel; `used.length + 1` iterations always suffice (proved
below by pigeonhole on the pairwise-distinct candidate names). -/

structure DestPath where
  parent : String
  name : String
deriving DecidableEq

/-- The candidate `dest_path.parent / f"{original_stem}_{counter}{original_suffix}"`. -/
def conflictCand (parent : String) (stem sfx : List Char) (k : Nat) : DestPath :=
  ⟨parent, String.mk (stem ++ '_' :: (natToDecimalChars k ++ sfx))⟩

/-- The `while dest_path in existing: dest_path = parent / f"{stem}_{counter}{suffix}"`
loop of `_resolve_naming_conflict`, with explicit fuel. -/
def resolveGo (used : List DestPath) (parent : String) (stem sfx : List Char) :
    Nat → Nat → DestPath → DestPath
  | 0, _, d => d
  | fuel + 1, counter, d =>
    if d ∈ used then
      resolveGo used parent stem sfx fuel (counter + 1) (conflictCand parent stem sfx counter)
    else d

/-- `DSSAutoFormatter._resolve_naming_conflict`. -/
def resolveNamingConflict (d : DestPath) (used : List DestPath) : DestPath :=
  let p := splitNameChars d.name.data
  resolveGo used d.parent p.1 p.2 (used.length + 1) 1 d

/-- One source file of the tree being transformed (relative path
components plus decoded content). -/
structure SrcFile where
  rel : List String
  content : String
deriving DecidableEq

/-- One discovered file record (`_discover_repository`): relative path,
`path.suffix`, and the first 1000 characters of content. -/
structure FileInfo where
  relativePath : List String
  extension : String
  contentSample : String

/-- The built-in `classification_rules` default of `dss_autoformat.py`
(dict-literal insertion order). -/
def defaultClassificationRules : List (String × List String) :=
  [("src", ["**/*.py", "**/*.js", "**/*.ts", "**/src/**", "**/lib/**"]),
   ("data", ["**/*.csv", "**/*.parquet", "**/*.json", "**/data/**"]),
   ("docs", ["**/*.md", "**/*.rst", "**/docs/**"]),
   ("tests", ["**/test_*.py", "**/*_test.py", "**/tests/**"]),
   ("meta", ["**/meta/**", "**/.github/**", "**/scripts/**"])]

/-- `DSSAutoFormatter._classify_by_rules`: first category whose pattern
set matches the relative path, else the sentinel `"ambiguous"`. -/
def classifyByRules (rules : List (String × List String)) (path : List String) : String :=
  match rules with
  | [] => "ambiguous"
  | (cat, pats) :: rest =>
    if pats.any (fun pat => pathMatch path pat) then cat else classifyByRules rest path

/-- `DSSAutoFormatter._classify_by_content`.  The JSON parse of a
notebook is a parameter (`jsonCells content` returns the cells rendered
to strings, or `none` when parsing raises): the classifier's use of the
parse result is embedded exactly, the parser itself is external
(Python's `json.loads`). -/
def classifyByContent (jsonCells : String → Option (List String)) (f : FileInfo) : String :=
  let content := f.contentSample
  let sfx := suffixOf (lastComp f.relativePath)
  if sfx = ".py" then
    if containsSub content "if __name__ == \"__main__\"" then "src"
    else if ["import pytest", "import unittest", "def test_"].any
        (fun p => containsSub (strLower content) p) then "tests"
    else if ["CONFIG", "SETTINGS", "config ="].any (fun p => containsSub content p) then "meta"
    else "ambiguous"
  else if sfx = ".ipynb" then
    match jsonCells content with
    | none => "ambiguous"
    | some cells =>
      if cells.any (fun c => containsSub (strLower c) "analysis") then "data"
      else if cells.any (fun c => containsSub (strLower c) "documentation") then "docs"
      else "ambiguous"
  else "ambiguous"

/-- `DSSAutoFormatter._classify_by_llm`: the raw chat response (or
`none` when the call raised) is scanned for the first valid category
name it contains. -/
def classifyByLLM (hasClient : Bool) (llmResponse : Option String) : String :=
  if !hasClient then "ambiguous"
  else
    match llmResponse with
    | none => "ambiguous"
    | some r =>
      let result := strLower (pyStrip r)
      match ["src", "data", "docs", "tests", "meta"].find? (fun c => containsSub result c) with
      | some c => c
      | none => "ambiguous"

/-- `DSSAutoFormatter._classify_fallback`: total extension table with an
explicit default of `"src"`. -/
def classifyFallback (f : FileInfo) : String :=
  let ext := strLower f.extension
  if ext ∈ [".py", ".js", ".ts", ".java", ".cpp", ".c"] then "src"
  else if ext ∈ [".md", ".rst", ".txt"] then "docs"
  else if ext ∈ [".csv", ".json", ".xml", ".parquet"] then "data"
  else if ext ∈ [".yml", ".yaml", ".toml", ".ini"] then "meta"
  else "src"

/-- `DSSAutoFormatter._classify_single_file`: rule stage, content stage,
optional LLM stage, then the total fallback. -/
def classifySingleFile (rules : List (String × List String)) (useLLM hasClient : Bool)
    (jsonCells : String → Option (List String)) (llmResponse : Option String)
    (f : FileInfo) : String :=
  let r := classifyByRules rules f.relativePath
  if r ≠ "ambiguous" then r
  else
    let c := classifyByContent jsonCells f
    if c ≠ "ambiguous" then c
    else
      if hasClient && useLLM then
        let l := classifyByLLM hasClient llmResponse
        if l ≠ "ambiguous" then l else classifyFallback f
      else classifyFallback f

/-- The `ignore_patterns` default of `dss_autoformat.py`. -/
def defaultIgnorePatterns : List String :=
  ["**/.git/**", "**/node_modules/**", "**/__pycache__/**", "**/.venv/**", "**/.env", "**/.*"]

/-- `DSSAutoFormatter._should_ignore_file`.  Note: the source computes
the relative path string but then calls `path.match(pattern)` on the
absolute path, so matching is done against the absolute path's
components. -/
def shouldIgnoreFile (ignorePatterns : List String) (absParts : List String) : Bool :=
  ignorePatterns.any (fun pat => pathMatch absParts pat)

/-- The file-discovery filter of `_discover_repository`: walk the tree,
skip ignored files, record relative path, suffix and content sample. -/
def discoverFiles (ignorePatterns : List String) (rootParts : List String)
    (tree : List SrcFile) : List FileInfo :=
  (tree.filter (fun f => !shouldIgnoreFile ignorePatterns (rootParts ++ f.rel))).map
    (fun f =>
      { relativePath := f.rel
        extension := suffixOf (lastComp f.rel)
        contentSample := String.mk (f.content.data.take 1000) })

/-- `DSSAutoFormatter._classify_files` over the discovered records, in
discovery order (Python dict preserves insertion order). -/
def classifyFiles (rules : List (String × List String)) (useLLM hasClient : Bool)
    (jsonCells : String → Option (List String)) (llmResponse : List String → Option String)
    (files : List FileInfo) : List (List String × String) :=
  files.map (fun fi =>
    (fi.relativePath, classifySingleFile rules useLLM hasClient jsonCells
      (llmResponse fi.relativePath) fi))

/-- One entry of `plan['file_moves']`. -/
structure MoveEntry where
  src : List String
  dest : DestPath
  category : String
deriving DecidableEq

/-- `plan['file_moves']` plus `plan['conflicts']` (each conflict records
the file and its resolved destination). -/
structure TransformationPlan where
  fileMoves : List MoveEntry
  conflicts : List (List String × DestPath)
deriving DecidableEq

/-- One iteration of the planning loop in `_create_transformation_plan`:
propose `Path(category) / name`, resolve against the already-planned
destinations on collision (recording the conflict), then append. -/
def planStep (p : TransformationPlan) (fp : List String) (cat : String) : TransformationPlan :=
  let proposed : DestPath := ⟨cat, lastComp fp⟩
  let used := p.fileMoves.map (fun m => m.dest)
  if proposed ∈ used then
    let resolved := resolveNamingConflict proposed used
    { fileMoves := p.fileMoves ++ [⟨fp, resolved, cat⟩]
      conflicts := p.conflicts ++ [(fp, resolved)] }
  else
    { fileMoves := p.fileMoves ++ [⟨fp, proposed, cat⟩]
      conflicts := p.conflicts }

/-- `DSSAutoFormatter._create_transformation_plan` (the file-movement
part: the metadata-injection list does not affect moves or conflicts). -/
def createTransformationPlan (classifications : List (List String × String)) :
    TransformationPlan :=
  classifications.foldl (fun p q => planStep p q.1 q.2) ⟨[], []⟩

/-- End-to-end plan of `dss_autoformat.py` for a source tree: discovery,
cascade classification, planning. -/
def autoformatPlan (ignorePatterns : List String) (rules : List (String × List String))
    (useLLM hasClient : Bool) (jsonCells : String → Option (List String))
    (llmResponse : List String → Option String) (rootParts : List String)
    (tree : List SrcFile) : TransformationPlan :=
  createTransformationPlan
    (classifyFiles rules useLLM hasClient jsonCells llmResponse
      (discoverFiles ignorePatterns rootParts tree))

def isOkB {ε α : Type} : Except ε α → Bool
  | Except.ok _ => true
  | Except.error _ => false

/-- The copy loop of `_execute_transformation`: `copyRes` is the outcome
of `shutil.copy2` for each move (raising is `Except.error`).  Copies are
performed in plan order and accumulated; the surrounding `try` of the
source catches the first raised error outside the loop, so execution
stops there and returns failure. -/
def execGo (copyRes : MoveEntry → Except String Unit) :
    List MoveEntry → List MoveEntry → Bool × List MoveEntry
  | [], done => (true, done)
  | m :: rest, done =>
    match copyRes m with
    | Except.ok _ => execGo copyRes rest (done ++ [m])
    | Except.error _ => (false, done)

/-- `DSSAutoFormatter._execute_transformation` (directory creation and
template download, which no claim concerns, are not modelled): returns
the success flag and the list of moves whose copy was performed. -/
def executeTransformation (dryRun : Bool) (copyRes : MoveEntry → Except String Unit)
    (moves : List MoveEntry) : Bool × List MoveEntry :=
  if dryRun then (true, [])
  else execGo copyRes moves []

/-! ## convert_to_dss.py

The destination file system is an association list from flattened
destination paths (components joined with `/`) to file contents; the
model counts every file write (`shutil.copy2` / `write_text`). -/

def fsGet : List (String × String) → String → Option String
  | [], _ => none
  | (k1, v) :: rest, k => if k1 = k then some v else fsGet rest k

def fsSet : List (String × String) → String → String → List (String × String)
  | [], k, v => [(k, v)]
  | (k1, v1) :: rest, k, v => if k1 = k then (k, v) :: rest else (k1, v1) :: fsSet rest k v

/-- Python `dict.get(key, default)` for string dicts. -/
def dictGet : List (String × String) → String → String → String
  | [], _, dflt => dflt
  | (k1, v) :: rest, k, dflt => if k1 = k then v else dictGet rest k dflt

/-- `DEFAULT_SKELETON` of `convert_to_dss.py`. -/
def defaultSkeleton : List String := ["data", "src", "docs", "canvas", "meta", "tests"]

/-- `DEFAULT_CLASS_MAP` of `convert_to_dss.py`: extension → category. -/
def defaultClassMap : List (String × String) :=
  [(".py", "src"), (".ipynb", "src"), (".r", "src"), (".js", "src"), (".ts", "src"),
   (".cpp", "src"),
   (".md", "docs"), (".rst", "docs"),
   (".csv", "data"), (".json", "data"), (".parquet", "data"), (".xlsx", "data")]

/-- `classify(file_path, class_map)`: look the lowercased suffix up,
defaulting to `"misc"`. -/
def classify (name : String) (classMap : List (String × String)) : String :=
  dictGet classMap (strLower (suffixOf name)) "misc"

/-- `BINARY_RE.search(fp.name)`: the name (case-insensitively) ends in
one of the binary extensions. -/
def binaryRe (name : String) : Bool :=
  [".png", ".jpg", ".jpeg", ".gif", ".pdf", ".zip", ".gz", ".tar", ".tgz",
   ".exe", ".dll", ".so", ".dylib"].any
    (fun e => e.data.isSuffixOf (strLower name).data)

/-- The effective configuration `convert` runs with (YAML defaults
already merged: `class_map` is `DEFAULT_CLASS_MAP` updated with the
config's map, `ignore`/`tags`/`patterns.binary` default to empty). -/
structure ConvCfg where
  skeleton : List String
  classMap : List (String × String)
  tagRules : List (String × String)
  ignore : List String
  binaryPatterns : List String

/-- Running with no config file at all. -/
def defaultConvCfg : ConvCfg :=
  { skeleton := defaultSkeleton
    classMap := defaultClassMap
    tagRules := []
    ignore := []
    binaryPatterns := [] }

/-- One processed file of a `convert` run (our bookkeeping of the moves
the run performs; `convert_to_dss.py` keeps no explicit plan object). -/
structure ConvEntry where
  rel : List String
  folder : List String
  name : String
  category : String
deriving DecidableEq

structure ConvState where
  fs : List (String × String)
  writes : Nat
  plan : List ConvEntry

/-- `copy_file(src, dest, overwrite)`: skip when the destination exists
and `overwrite` is false, else write the content. -/
def copyFile (content : String) (key : String) (overwrite : Bool)
    (fs : List (String × String)) (writes : Nat) : List (String × String) × Nat :=
  if (fsGet fs key).isSome && !overwrite then (fs, writes)
  else (fsSet fs key content, writes + 1)

/-- PyYAML `safe_dump` of the front-matter dict with `sort_keys=False`.
The byte-level YAML encoding is produced by an external library; it is
modelled as the evident plain-style rendering (no claim depends on these
bytes, only on the block's delimiters and leading characters). -/
def yamlFrontMatter (tag category desc : String) : String :=
  "tags:\n- " ++ tag ++ "\ncategory: " ++ category ++ "\ndescription: " ++ desc ++ "\n"

/-- `inject_metadata(fp, category, tag_rules, binary_patterns)`.
`fp.relative_to(fp.parent.parent)` is the last folder component plus the
name; `fp.suffix == ".py"` wraps the front-matter block in triple
quotes.  Decoding always succeeds in the model (sources are text). -/
def injectMetadata (cfg : ConvCfg) (category : String) (folder : List String) (name : String)
    (fs : List (String × String)) (writes : Nat) : List (String × String) × Nat :=
  let key := String.intercalate "/" (folder ++ [name])
  let relFromRoot := [lastComp folder, name]
  if cfg.binaryPatterns.any (fun p => pathMatch relFromRoot p) then (fs, writes)
  else if binaryRe name then (fs, writes)
  else
    match fsGet fs key with
    | none => (fs, writes)
    | some original =>
      if pyStartsWith (pyLstrip original) "---" then (fs, writes)
      else
        let tag := dictGet cfg.tagRules category category
        let block0 := "---\n" ++
          yamlFrontMatter tag category ("Auto‑imported " ++ name ++ " into DSS repo") ++
          "---\n\n"
        let block := if suffixOf name = ".py" then "\"\"\"\n" ++ block0 ++ "\"\"\"\n\n" else block0
        (fsSet fs key (block ++ original), writes + 1)

/-- One iteration of the `for src_file in source.rglob("*")` loop of
`convert`: ignore-pattern check on the relative path, dot-segment check
on the full path's parts (which include the source root's own parts),
classification, destination choice, copy, metadata injection. -/
def convertStep (cfg : ConvCfg) (rootParts : List String) (force : Bool)
    (st : ConvState) (f : SrcFile) : ConvState :=
  let shouldIgnore := cfg.ignore.any (fun p => pathMatch f.rel p)
  let dotSkip := (rootParts ++ f.rel).any (fun part => pyStartsWith part ".")
  if shouldIgnore || dotSkip then st
  else
    let name := lastComp f.rel
    let category := classify name cfg.classMap
    let folder := if category ∈ cfg.skeleton then [category] else ["meta", "misc"]
    let key := String.intercalate "/" (folder ++ [name])
    let c1 := copyFile f.content key force st.fs st.writes
    let c2 := injectMetadata cfg category folder name c1.1 c1.2
    { fs := c2.1, writes := c2.2, plan := st.plan ++ [⟨f.rel, folder, name, category⟩] }

/-- `create_stub_readme(dest / sub)`: write a placeholder README when
absent. -/
def stubReadme (sub : String) (st : ConvState) : ConvState :=
  let subName := lastComp ((splitCharsOn '/' sub.data).map String.mk)
  let key := sub ++ "/README.md"
  if (fsGet st.fs key).isSome then st
  else
    { st with
      fs := fsSet st.fs key
        ("# " ++ subName ++
          "\n\n*This README was auto‑generated as part of the DSS conversion.*\n")
      writes := st.writes + 1 }

/-- `generate_manifest` plus `json.dumps`: the manifest is a rendering
of the destination's current file listing.  The byte-level JSON encoding
is produced by an external library; no claim depends on these bytes, so
it is modelled as a deterministic rendering of the same listing. -/
def manifestSerialize (fs : List (String × String)) : String :=
  String.intercalate "\n" (fs.map (fun kv => kv.1))

def rootReadmeText : String :=
  "# DSS Converted Repository\n\nThis project was converted automatically using " ++
  "`convert_to_dss.py`.\n\nNext step: run\n```bash\npython meta/llm_tasks.py --mode all\n" ++
  "```\nto generate rich documentation.\n"

/-- `convert(source, dest, cfg, force)`: the file loop, the stub
READMEs, the (unconditional) manifest write, and the root README.
Directory creation (`ensure_skeleton`) writes no files and is not
modelled. -/
def convert (cfg : ConvCfg) (rootParts : List String) (tree : List SrcFile) (force : Bool)
    (fs0 : List (String × String)) : ConvState :=
  let st0 : ConvState := { fs := fs0, writes := 0, plan := [] }
  let st1 := tree.foldl (convertStep cfg rootParts force) st0
  let st2 := cfg.skeleton.foldl (fun st sub => stubReadme sub st) st1
  let st3 : ConvState :=
    { st2 with
      fs := fsSet st2.fs "meta/manifest.json" (manifestSerialize st2.fs)
      writes := st2.writes + 1 }
  match fsGet st3.fs "README.md" with
  | some _ => st3
  | none =>
    { st3 with fs := fsSet st3.fs "README.md" rootReadmeText, writes := st3.writes + 1 }

/-! ## convert_to_dss.py: name normalization (`--normalize-names`) -/

def lookupOpt : List (String × String) → String → Option String
  | [], _ => none
  | (k1, v) :: rest, k => if k1 = k then some v else lookupOpt rest k

def fsDel : List (String × String) → String → List (String × String)
  | [], _ => []
  | (k1, v) :: rest, k => if k1 = k then rest else (k1, v) :: fsDel rest k

/-- `[A-Z]` of the `re.sub` patterns in `transform_filename`. -/
def isAsciiUpper (c : Char) : Bool := 'A' ≤ c && c ≤ 'Z'

/-- `re.sub(r'(?<!^)(?=[A-Z])', sep, stem)`: insert `sep` before every
uppercase character except at position 0. -/
def insertSepBeforeUpperAux (sep : Char) : List Char → List Char
  | [] => []
  | c :: rest =>
    if isAsciiUpper c then sep :: c :: insertSepBeforeUpperAux sep rest
    else c :: insertSepBeforeUpperAux sep rest

def insertSepBeforeUpper (sep : Char) : List Char → List Char
  | [] => []
  | c :: rest => c :: insertSepBeforeUpperAux sep rest

/-- `re.split` on a character class: consecutive delimiters yield empty
parts, exactly as in Python. -/
def splitCharsOnPred (p : Char → Bool) : List Char → List (List Char)
  | [] => [[]]
  | c :: rest =>
    let r := splitCharsOnPred p rest
    if p c then [] :: r
    else
      match r with
      | [] => [[c]]
      | h :: t => (c :: h) :: t

/-- Python `str.capitalize()`: first character uppercased, the rest
lowercased. -/
def pyCapitalize : List Char → List Char
  | [] => []
  | c :: rest => Char.toUpper c :: rest.map Char.toLower

/-- The `naming_rules` section of `dss_config.yml` as
`transform_filename` reads it. -/
structure NamingRules where
  ignorePatterns : List String
  overrides : List (String × String)
  transformations : List (String × String)
  genericTerms : List String
  domainPrefixes : List (String × String)

/-- The delimiter class `[-_\s]` of the camel/Pascal splits. -/
def isStyleDelim (c : Char) : Bool := c = '-' || c = '_' || isPyWhitespace c

/-- The four case-conversion styles of `transform_filename` applied to a
stem (as character lists). -/
def applyStyle (style : String) (stem : List Char) : List Char :=
  if style = "snake_case" then
    ((insertSepBeforeUpper '_' stem).map Char.toLower).map
      (fun c => if c = '-' || isPyWhitespace c then '_' else c)
  else if style = "kebab-case" then
    ((insertSepBeforeUpper '-' stem).map Char.toLower).map
      (fun c => if c = '_' || isPyWhitespace c then '-' else c)
  else if style = "camelCase" then
    match splitCharsOnPred isStyleDelim stem with
    | [] => []
    | p0 :: restp => p0.map Char.toLower ++ (restp.map pyCapitalize).flatten
  else if style = "PascalCase" then
    ((splitCharsOnPred isStyleDelim stem).map pyCapitalize).flatten
  else stem

/-- The generic-term prefixing block of `transform_filename`.  In the
`camelCase` branch Python indexes `transformed[0]`, which raises on an
empty stem; that (unreachable for any input a claim touches) case is
modelled as plain concatenation. -/
def applyDomainPrefixing (style : String) (pref : List Char) (transformed : List Char) :
    List Char :=
  if style = "snake_case" then pref.map Char.toLower ++ '_' :: transformed
  else if style = "kebab-case" then pref.map Char.toLower ++ '-' :: transformed
  else if style = "camelCase" then
    match transformed with
    | [] => pref.map Char.toLower
    | c :: rest => pref.map Char.toLower ++ Char.toUpper c :: rest
  else if style = "PascalCase" then pyCapitalize pref ++ transformed
  else transformed

/-- `transform_filename(path, rules)`.  `rules = none` models the empty
dict (`if not rules: return path.name`); explicit `overrides` entries
(matched against the path's posix string) win over every
transformation. -/
def transformFilename (parts : List String) (rules : Option NamingRules) : String :=
  let name := lastComp parts
  match rules with
  | none => name
  | some r =>
    let stem := stemOf name
    let sfx := strLower (suffixOf name)
    let relStr := asPosix parts
    if r.ignorePatterns.any (fun p => pathMatch parts p) then name
    else
      match lookupOpt r.overrides relStr with
      | some ov => ov
      | none =>
        let style := dictGet r.transformations sfx "keep"
        if style = "keep" then name
        else
          let transformed := applyStyle style stem.data
          let lowerT := String.mk (transformed.map Char.toLower)
          let parentName := parts.dropLast.getLastD ""
          let transformed2 :=
            match lookupOpt r.domainPrefixes parentName with
            | some pref =>
              if lowerT ∈ r.genericTerms then applyDomainPrefixing style pref.data transformed
              else transformed
            | none => transformed
          String.mk transformed2 ++ sfx

/-- `normalize_names(files, dest_root, rules)`: rename planned
destinations per the naming rules, skipping renames that would overwrite
an existing file (`shutil.move` is delete-and-set on the modelled file
system).  With an empty `naming_rules` the mapping is returned
unchanged. -/
def normalizeNames (rules : Option NamingRules) (fs0 : List (String × String))
    (files : List (List String × List String)) :
    List (List String × List String) × List (String × String) :=
  match rules with
  | none => (files, fs0)
  | some r =>
    files.foldl (fun acc q =>
      let orig := q.1
      let destPath := q.2
      let newName := transformFilename destPath (some r)
      if newName ≠ lastComp destPath then
        let newDest := destPath.dropLast ++ [newName]
        let destKey := asPosix destPath
        let newKey := asPosix newDest
        match fsGet acc.2 destKey with
        | some content =>
          if (fsGet acc.2 newKey).isSome && newKey ≠ destKey then
            (acc.1 ++ [(orig, destPath)], acc.2)
          else
            (acc.1 ++ [(orig, newDest)], fsSet (fsDel acc.2 destKey) newKey content)
        | none => (acc.1 ++ [(orig, newDest)], acc.2)
      else (acc.1 ++ [(orig, destPath)], acc.2))
      ([], fs0)

/-- `main` of `convert_to_dss.py` with `--normalize-names` given: the
file mapping is initialised empty (its population is an unimplemented
comment in the source), normalised — a no-op on the empty mapping — and
the result is discarded; then `convert` runs without it. -/
def convertMain (cfg : ConvCfg) (namingRules : Option NamingRules) (rootParts : List String)
    (tree : List SrcFile) (force normalizeFlag : Bool)
    (fs0 : List (String × String)) : ConvState :=
  let fileMapping : List (List String × List String) := []
  let _normalized :=
    if normalizeFlag then normalizeNames namingRules fs0 fileMapping else (fileMapping, fs0)
  convert cfg rootParts tree force fs0

/-- The skip condition of one `convert` loop iteration. -/
def convSkip (cfg : ConvCfg) (rootParts : List String) (f : SrcFile) : Bool :=
  cfg.ignore.any (fun p => pathMatch f.rel p) ||
    (rootParts ++ f.rel).any (fun part => pyStartsWith part ".")

/-- A copy oracle that raises (only) on the first of two planned files,
modelling a permission error from `shutil.copy2`. -/
def failFirstOracle : MoveEntry → Except String Unit := fun m =>
  if m.src = ["a.txt"] then Except.error "PermissionError" else Except.ok ()

/-- The overrides configuration of the spec's example. -/
def runOverrides : NamingRules := ⟨[], [("scripts/run.py", "main_runner.py")], [], [], []⟩

/-! ## Proof development -/

theorem toDecimalAux_eq_digits (fuel : Nat) :
    ∀ n, n ≤ fuel → toDecimalAux fuel n = ((Nat.digits 10 n).map Nat.digitChar).reverse := by
  induction fuel with
  | zero =>
    intro n hn
    interval_cases n
    simp [toDecimalAux]
  | succ fuel ih =>
    intro n hn
    by_cases h0 : n = 0
    · simp [toDecimalAux, h0]
    · have hdiv : n / 10 ≤ fuel := by
        have : n / 10 < n := Nat.div_lt_self (Nat.pos_of_ne_zero h0) (by omega)
        omega
      have hd := Nat.digits_def' (b := 10) (by omega) (Nat.pos_of_ne_zero h0)
      simp [toDecimalAux, h0, hd, ih (n / 10) hdiv]

theorem natToDecimalChars_eq (n : Nat) (h : n ≠ 0) :
    natToDecimalChars n = ((Nat.digits 10 n).map Nat.digitChar).reverse := by
  simp [natToDecimalChars, h, toDecimalAux_eq_digits (n + 1) n (by omega)]

theorem digitChar_inj_lt : ∀ a, a < 10 → ∀ b, b < 10 → Nat.digitChar a = Nat.digitChar b → a = b := by
  decide

theorem map_digitChar_inj :
    ∀ l1 l2 : List Nat, (∀ x ∈ l1, x < 10) → (∀ x ∈ l2, x < 10) →
      l1.map Nat.digitChar = l2.map Nat.digitChar → l1 = l2 := by
  intro l1
  induction l1 with
  | nil => intro l2 _ _ h; cases l2 <;> simp_all
  | cons a l ih =>
    intro l2 h1 h2 h
    cases l2 with
    | nil => simp at h
    | cons b m =>
      simp only [List.map_cons, List.cons.injEq] at h
      have ha : a = b :=
        digitChar_inj_lt a (h1 a (by simp)) b (h2 b (by simp)) h.1
      have hm : l = m := ih m (fun x hx => h1 x (by simp [hx])) (fun x hx => h2 x (by simp [hx])) h.2
      simp [ha, hm]

theorem natToDecimalChars_ne_zero_char (n : Nat) (hn : n ≠ 0) : natToDecimalChars n ≠ ['0'] := by
  intro h
  rw [natToDecimalChars_eq n hn] at h
  have h2 := congrArg List.reverse h
  simp only [List.reverse_reverse] at h2
  have h0 : ([0] : List Nat).map Nat.digitChar = ['0'] := by decide
  have hdig : Nat.digits 10 n = [0] :=
    map_digitChar_inj _ _ (fun x hx => Nat.digits_lt_base (by omega) hx)
      (fun x hx => by simp at hx; omega) (by rw [h2]; exact h0.symm)
  have hof := Nat.ofDigits_digits 10 n
  rw [hdig] at hof
  simp [Nat.ofDigits] at hof
  omega

theorem natToDecimalChars_inj : Function.Injective natToDecimalChars := by
  intro m n h
  have hz : natToDecimalChars 0 = ['0'] := by decide
  by_cases hm : m = 0 <;> by_cases hn : n = 0
  · omega
  · exfalso
    rw [hm, hz] at h
    exact natToDecimalChars_ne_zero_char n hn h.symm
  · exfalso
    rw [hn, hz] at h
    exact natToDecimalChars_ne_zero_char m hm h
  · rw [natToDecimalChars_eq m hm, natToDecimalChars_eq n hn] at h
    have h2 := congrArg List.reverse h
    simp only [List.reverse_reverse] at h2
    have hdig : Nat.digits 10 m = Nat.digits 10 n := by
      apply map_digitChar_inj _ _ _ _ h2
      · intro x hx; exact Nat.digits_lt_base (by omega) hx
      · intro x hx; exact Nat.digits_lt_base (by omega) hx
    exact Nat.digits.injective 10 hdig

theorem digitChar_ne_dot : ∀ m, m < 10 → Nat.digitChar m ≠ '.' := by decide

theorem toDecimalAux_no_dot (fuel : Nat) :
    ∀ n, ∀ c ∈ toDecimalAux fuel n, c ≠ '.' := by
  induction fuel with
  | zero => intro n c hc; simp [toDecimalAux] at hc
  | succ fuel ih =>
    intro n c hc
    by_cases h0 : n = 0
    · simp [toDecimalAux, h0] at hc
    · simp only [toDecimalAux, if_neg h0, List.mem_append, List.mem_singleton] at hc
      rcases hc with hc | hc
      · exact ih _ c hc
      · rw [hc]; exact digitChar_ne_dot _ (Nat.mod_lt n (by omega))

theorem natToDecimalChars_no_dot (n : Nat) : ∀ c ∈ natToDecimalChars n, c ≠ '.' := by
  intro c hc
  by_cases h0 : n = 0
  · simp [natToDecimalChars, h0] at hc
    simp [hc]
  · rw [natToDecimalChars, if_neg h0] at hc
    exact toDecimalAux_no_dot _ _ c hc

theorem conflictCand_inj (parent : String) (stem sfx : List Char) :
    Function.Injective (conflictCand parent stem sfx) := by
  intro j k h
  have h2 : stem ++ '_' :: (natToDecimalChars j ++ sfx) =
      stem ++ '_' :: (natToDecimalChars k ++ sfx) := by
    have := congrArg (fun d : DestPath => d.name.data) h
    simpa [conflictCand] using this
  have h3 := List.append_cancel_left h2
  simp only [List.cons.injEq, true_and] at h3
  exact natToDecimalChars_inj (List.append_cancel_right h3)

theorem resolveGo_of_not_mem (used : List DestPath) (parent : String) (stem sfx : List Char)
    (fuel counter : Nat) (d : DestPath) (h : d ∉ used) :
    resolveGo used parent stem sfx fuel counter d = d := by
  cases fuel <;> simp [resolveGo, h]

theorem exists_cand_not_mem (used : List DestPath) (parent : String) (stem sfx : List Char) :
    ∃ j, 1 ≤ j ∧ j < 1 + (used.length + 1) ∧ conflictCand parent stem sfx j ∉ used := by
  by_contra hcon
  push_neg at hcon
  set l := (List.range (used.length + 1)).map (fun i => conflictCand parent stem sfx (i + 1)) with hl
  have hnodup : l.Nodup := by
    refine List.Nodup.map ?_ (List.nodup_range _)
    intro a b hab
    have := conflictCand_inj parent stem sfx hab
    omega
  have hsub : l ⊆ used := by
    intro y hy
    rw [hl, List.mem_map] at hy
    obtain ⟨i, hi, rfl⟩ := hy
    rw [List.mem_range] at hi
    exact hcon (i + 1) (by omega) (by omega)
  have hlen : l.length = used.length + 1 := by simp [hl]
  have := (hnodup.subperm hsub).length_le
  omega

theorem resolveGo_spec (used : List DestPath) (parent : String) (stem sfx : List Char) :
    ∀ fuel counter d, d ∈ used →
      (∃ j, counter ≤ j ∧ j < counter + fuel ∧ conflictCand parent stem sfx j ∉ used) →
      ∃ N, counter ≤ N ∧ conflictCand parent stem sfx N ∉ used ∧
        (∀ M, counter ≤ M → M < N → conflictCand parent stem sfx M ∈ used) ∧
        resolveGo used parent stem sfx fuel counter d = conflictCand parent stem sfx N := by
  intro fuel
  induction fuel with
  | zero =>
    intro counter d _ hex
    obtain ⟨j, hj1, hj2, _⟩ := hex
    omega
  | succ fuel ih =>
    intro counter d hd hex
    rw [resolveGo, if_pos hd]
    by_cases hc : conflictCand parent stem sfx counter ∈ used
    · obtain ⟨j, hj1, hj2, hj3⟩ := hex
      have hjne : j ≠ counter := by
        intro hj; rw [hj] at hj3; exact hj3 hc
      obtain ⟨N, hN1, hN2, hN3, hN4⟩ :=
        ih (counter + 1) (conflictCand parent stem sfx counter) hc
          ⟨j, by omega, by omega, hj3⟩
      refine ⟨N, by omega, hN2, ?_, hN4⟩
      intro M hM1 hM2
      rcases Nat.eq_or_lt_of_le hM1 with hM | hM
      · rw [← hM]; exact hc
      · exact hN3 M (by omega) hM2
    · refine ⟨counter, le_refl _, hc, ?_, ?_⟩
      · intro M h1 h2; omega
      · exact resolveGo_of_not_mem used parent stem sfx fuel (counter + 1) _ hc

/-- Characterization of the resolver on a colliding input: it returns the
first free candidate `stem_N ++ suffix`, `N = 1, 2, 3, …`. -/
theorem resolveNamingConflict_spec (d : DestPath) (used : List DestPath) (hd : d ∈ used) :
    ∃ N, 1 ≤ N ∧
      conflictCand d.parent (splitNameChars d.name.data).1 (splitNameChars d.name.data).2 N ∉ used ∧
      (∀ M, 1 ≤ M → M < N →
        conflictCand d.parent (splitNameChars d.name.data).1 (splitNameChars d.name.data).2 M ∈ used) ∧
      resolveNamingConflict d used =
        conflictCand d.parent (splitNameChars d.name.data).1 (splitNameChars d.name.data).2 N := by
  obtain ⟨j, hj1, hj2, hj3⟩ :=
    exists_cand_not_mem used d.parent (splitNameChars d.name.data).1 (splitNameChars d.name.data).2
  exact resolveGo_spec used d.parent _ _ (used.length + 1) 1 d hd ⟨j, hj1, hj2, hj3⟩

theorem resolveNamingConflict_not_mem (d : DestPath) (used : List DestPath) (hd : d ∈ used) :
    resolveNamingConflict d used ∉ used := by
  obtain ⟨N, _, hN2, _, hN4⟩ := resolveNamingConflict_spec d used hd
  rw [hN4]; exact hN2

theorem resolveGo_parent (used : List DestPath) (parent : String) (stem sfx : List Char) :
    ∀ fuel counter d, d.parent = parent →
      (resolveGo used parent stem sfx fuel counter d).parent = parent := by
  intro fuel
  induction fuel with
  | zero => intro counter d h; simpa [resolveGo] using h
  | succ fuel ih =>
    intro counter d h
    rw [resolveGo]
    by_cases hd : d ∈ used
    · rw [if_pos hd]; exact ih (counter + 1) _ rfl
    · rwa [if_neg hd]

theorem resolveNamingConflict_parent (d : DestPath) (used : List DestPath) :
    (resolveNamingConflict d used).parent = d.parent :=
  resolveGo_parent used d.parent _ _ (used.length + 1) 1 d rfl

/-! ## Structure of the resolver's output name

How pathlib's stem/suffix split behaves on the candidate names
`stem ++ "_" ++ str(N) ++ suffix`. -/

theorem rfindDot_cons_some (c : Char) (cs : List Char) (j : Nat) (h : rfindDot cs = some j) :
    rfindDot (c :: cs) = some (j + 1) := by
  rw [rfindDot, h]

theorem rfindDot_cons_none (c : Char) (cs : List Char) (h : rfindDot cs = none) :
    rfindDot (c :: cs) = if c = '.' then some 0 else none := by
  rw [rfindDot, h]

theorem rfindDot_none_iff : ∀ cs : List Char, rfindDot cs = none ↔ ∀ c ∈ cs, c ≠ '.'
  | [] => by simp [rfindDot]
  | c :: cs => by
    cases hcs : rfindDot cs with
    | some j =>
      rw [rfindDot_cons_some c cs j hcs]
      constructor
      · intro h; simp at h
      · intro h
        have h2 := (rfindDot_none_iff cs).mpr (fun x hx => h x (List.mem_cons_of_mem c hx))
        rw [hcs] at h2; simp at h2
    | none =>
      rw [rfindDot_cons_none c cs hcs]
      by_cases hc : c = '.'
      · rw [if_pos hc]
        constructor
        · intro h; simp at h
        · intro h; exact absurd hc (h c (List.mem_cons_self c cs))
      · rw [if_neg hc]
        constructor
        · intro _ x hx
          rcases List.mem_cons.mp hx with h1 | h1
          · rw [h1]; exact hc
          · exact (rfindDot_none_iff cs).mp hcs x h1
        · intro _; rfl

theorem rfindDot_append_some (xs ys : List Char) (j : Nat) (h : rfindDot ys = some j) :
    rfindDot (xs ++ ys) = some (xs.length + j) := by
  induction xs with
  | nil => simpa using h
  | cons x xs ih =>
    rw [List.cons_append, rfindDot_cons_some x (xs ++ ys) (xs.length + j) ih]
    simp only [List.length_cons, Option.some.injEq]
    omega

theorem rfindDot_append_none (xs ys : List Char) (h : rfindDot ys = none) :
    rfindDot (xs ++ ys) = rfindDot xs := by
  induction xs with
  | nil => simpa using h
  | cons x xs ih => rw [List.cons_append, rfindDot, ih, rfindDot]

theorem rfindDot_dot_cons (post : List Char) (h : ∀ c ∈ post, c ≠ '.') :
    rfindDot ('.' :: post) = some 0 := by
  rw [rfindDot_cons_none '.' post ((rfindDot_none_iff post).mpr h), if_pos rfl]

theorem rfindDot_eq_some : ∀ (cs : List Char) (i : Nat), rfindDot cs = some i →
    ∃ pre post, cs = pre ++ '.' :: post ∧ pre.length = i ∧ ∀ c ∈ post, c ≠ '.'
  | [], i, h => by simp [rfindDot] at h
  | c :: cs, i, h => by
    cases hcs : rfindDot cs with
    | some j =>
      rw [rfindDot_cons_some c cs j hcs] at h
      simp only [Option.some.injEq] at h
      obtain ⟨pre, post, h1, h2, h3⟩ := rfindDot_eq_some cs j hcs
      exact ⟨c :: pre, post, by simp [h1], by simp only [List.length_cons]; omega, h3⟩
    | none =>
      rw [rfindDot_cons_none c cs hcs] at h
      by_cases hc : c = '.'
      · rw [if_pos hc] at h
        simp only [Option.some.injEq] at h
        exact ⟨[], cs, by simp [hc], by simp [← h], (rfindDot_none_iff cs).mp hcs⟩
      · rw [if_neg hc] at h; simp at h

theorem splitNameChars_of_some (cs : List Char) (i : Nat) (h : rfindDot cs = some i) :
    splitNameChars cs =
      if 0 < i ∧ i + 1 < cs.length then (cs.take i, cs.drop i) else (cs, []) := by
  rw [splitNameChars, h]

theorem splitNameChars_of_none (cs : List Char) (h : rfindDot cs = none) :
    splitNameChars cs = (cs, []) := by
  rw [splitNameChars, h]

theorem noDot_append (xs ys : List Char) (hx : ∀ c ∈ xs, c ≠ '.') (hy : ∀ c ∈ ys, c ≠ '.') :
    ∀ c ∈ xs ++ ys, c ≠ '.' := by
  intro c hc
  rcases List.mem_append.mp hc with h | h
  · exact hx c h
  · exact hy c h

theorem underscore_dec_no_dot (k : Nat) : ∀ c ∈ '_' :: natToDecimalChars k, c ≠ '.' := by
  intro c hc
  rcases List.mem_cons.mp hc with h | h
  · rw [h]; decide
  · exact natToDecimalChars_no_dot k c h

/-- Key frame property of the candidate names: inserting `_N` between a
name's pathlib stem and suffix yields a name whose pathlib split is
`(stem ++ "_" ++ str N, suffix)` — provided the original name does not
end with a dot. -/
theorem splitNameChars_insert (name : List Char) (k : Nat)
    (hlast : name.getLast? ≠ some '.') :
    splitNameChars ((splitNameChars name).1 ++ '_' ::
        (natToDecimalChars k ++ (splitNameChars name).2)) =
      ((splitNameChars name).1 ++ '_' :: natToDecimalChars k, (splitNameChars name).2) := by
  rcases hr : rfindDot name with _ | i
  · -- no dot in the name at all
    have hsp : splitNameChars name = (name, []) := splitNameChars_of_none name hr
    simp only [hsp, List.append_nil]
    have hys : rfindDot ('_' :: natToDecimalChars k) = none :=
      (rfindDot_none_iff _).mpr (underscore_dec_no_dot k)
    rw [splitNameChars_of_none _ (by rw [rfindDot_append_none name _ hys]; exact hr)]
  · obtain ⟨pre, post, hdec, hlen, hpost⟩ := rfindDot_eq_some name i hr
    by_cases hcond : 0 < i ∧ i + 1 < name.length
    · -- genuine suffix: name = pre ++ '.' :: post with pre, post nonempty
      have hpost_ne : 0 < post.length := by
        have hlenname : name.length = i + 1 + post.length := by
          rw [hdec, List.length_append, List.length_cons, hlen]
          omega
        omega
      have hsp : splitNameChars name = (pre, '.' :: post) := by
        rw [splitNameChars_of_some name i hr, if_pos hcond, hdec, ← hlen]
        rw [List.take_left, List.drop_left]
      simp only [hsp]
      have hassoc : pre ++ '_' :: (natToDecimalChars k ++ '.' :: post) =
          (pre ++ '_' :: natToDecimalChars k) ++ '.' :: post := by
        simp
      rw [hassoc]
      have hfind : rfindDot ((pre ++ '_' :: natToDecimalChars k) ++ '.' :: post) =
          some (pre ++ '_' :: natToDecimalChars k).length := by
        have := rfindDot_append_some (pre ++ '_' :: natToDecimalChars k) ('.' :: post) 0
          (rfindDot_dot_cons post hpost)
        simpa using this
      rw [splitNameChars_of_some _ _ hfind]
      have hc2 : 0 < (pre ++ '_' :: natToDecimalChars k).length ∧
          (pre ++ '_' :: natToDecimalChars k).length + 1 <
            ((pre ++ '_' :: natToDecimalChars k) ++ '.' :: post).length := by
        constructor
        · simp
        · simp only [List.length_append, List.length_cons]
          omega
      rw [if_pos hc2, List.take_left, List.drop_left]
    · -- degenerate: the dot is the first character (a leading-dot name)
      have hsp : splitNameChars name = (name, []) := by
        rw [splitNameChars_of_some name i hr, if_neg hcond]
      -- the dot cannot be the last character, by `hlast`
      have hpost_ne : post ≠ [] := by
        intro h
        rw [hdec, h] at hlast
        exact hlast (by simp)
      have hi0 : i = 0 := by
        have hlenname : name.length = i + 1 + post.length := by
          rw [hdec, List.length_append, List.length_cons, hlen]
          omega
        have : 0 < post.length := List.length_pos.mpr hpost_ne
        omega
      have hpre : pre = [] := List.length_eq_zero.mp (by omega)
      simp only [hsp, List.append_nil]
      have hname : name = '.' :: post := by rw [hdec, hpre]; rfl
      have hassoc : name ++ '_' :: natToDecimalChars k =
          '.' :: (post ++ '_' :: natToDecimalChars k) := by
        rw [hname]; rfl
      have hfind : rfindDot (name ++ '_' :: natToDecimalChars k) = some 0 := by
        rw [hassoc]
        exact rfindDot_dot_cons _ (noDot_append _ _ hpost (underscore_dec_no_dot k))
      rw [splitNameChars_of_some _ _ hfind, if_neg (by simp)]

/-! ## Stage lemmas for the classification cascade -/

theorem classifyByRules_mem (rules : List (String × List String)) (path : List String) :
    classifyByRules rules path = "ambiguous" ∨
      classifyByRules rules path ∈ rules.map Prod.fst := by
  induction rules with
  | nil => left; rfl
  | cons r rest ih =>
    obtain ⟨cat, pats⟩ := r
    rw [classifyByRules]
    by_cases h : pats.any (fun pat => pathMatch path pat)
    · rw [if_pos h]; right; simp
    · rw [if_neg h]
      rcases ih with h1 | h1
      · left; exact h1
      · right; simp [h1]

theorem classifyByContent_mem (jsonCells : String → Option (List String)) (f : FileInfo) :
    classifyByContent jsonCells f ∈ ["src", "tests", "meta", "data", "docs", "ambiguous"] := by
  rw [classifyByContent]
  split_ifs <;> try simp
  rcases jsonCells f.contentSample with _ | cells
  · simp
  · simp only []
    split_ifs <;> simp

theorem classifyByLLM_mem (hasClient : Bool) (llmResponse : Option String) :
    classifyByLLM hasClient llmResponse = "ambiguous" ∨
      classifyByLLM hasClient llmResponse ∈ ["src", "data", "docs", "tests", "meta"] := by
  rw [classifyByLLM.eq_def]
  split_ifs with h
  · left; rfl
  · cases llmResponse with
    | none => left; rfl
    | some r =>
      simp only []
      cases hf : ["src", "data", "docs", "tests", "meta"].find?
          (fun c => containsSub (strLower (pyStrip r)) c) with
      | none => left; rfl
      | some c => right; exact List.mem_of_find?_eq_some hf

theorem classifyFallback_mem (f : FileInfo) :
    classifyFallback f ∈ ["src", "docs", "data", "meta"] := by
  rw [classifyFallback]
  split_ifs <;> simp

/-- C1: Totality of the classification cascade — for every discovered
file, with any extension (including unrecognized ones) and any content,
`_classify_single_file` under the built-in rules (and any behavior of
the optional LLM stage and of the notebook JSON parser) returns exactly
one concrete category in `{src, docs, tests, data, meta, misc}`; the
sentinel `"ambiguous"` never escapes as a final classification. -/
theorem cascade_totality (useLLM hasClient : Bool) (jsonCells : String → Option (List String))
    (llmResponse : Option String) (f : FileInfo) :
    classifySingleFile defaultClassificationRules useLLM hasClient jsonCells llmResponse f ∈
      ["src", "docs", "tests", "data", "meta", "misc"] ∧
    classifySingleFile defaultClassificationRules useLLM hasClient jsonCells llmResponse f ≠
      "ambiguous" := by
  have hr := classifyByRules_mem defaultClassificationRules f.relativePath
  have hc := classifyByContent_mem jsonCells f
  have hl := classifyByLLM_mem hasClient llmResponse
  have hfb := classifyFallback_mem f
  have sub1 : ∀ x ∈ (["src", "data", "docs", "tests", "meta"] : List String),
      x ∈ (["src", "docs", "tests", "data", "meta", "misc"] : List String) ∧
        x ≠ "ambiguous" := by decide
  have sub2 : ∀ x ∈ (["src", "tests", "meta", "data", "docs", "ambiguous"] : List String),
      x ≠ "ambiguous" →
        x ∈ (["src", "docs", "tests", "data", "meta", "misc"] : List String) := by decide
  have sub3 : ∀ x ∈ (["src", "docs", "data", "meta"] : List String),
      x ∈ (["src", "docs", "tests", "data", "meta", "misc"] : List String) ∧
        x ≠ "ambiguous" := by decide
  have hrules : classifyByRules defaultClassificationRules f.relativePath = "ambiguous" ∨
      classifyByRules defaultClassificationRules f.relativePath ∈
        (["src", "data", "docs", "tests", "meta"] : List String) := by
    rcases hr with h | h
    · left; exact h
    · right; simpa [defaultClassificationRules] using h
  simp only [classifySingleFile]
  split_ifs with h1 h2 h3 h4
  · rcases hrules with h | h
    · exact absurd h h1
    · exact sub1 _ h
  · exact ⟨sub2 _ hc h2, h2⟩
  · rcases hl with h | h
    · exact absurd h h4
    · exact sub1 _ h
  · exact sub3 _ hfb
  · exact sub3 _ hfb

/-! ## Plan-builder lemmas -/

theorem planStep_nodup (p : TransformationPlan) (fp : List String) (cat : String)
    (h : (p.fileMoves.map (fun m => m.dest)).Nodup) :
    (((planStep p fp cat).fileMoves).map (fun m => m.dest)).Nodup := by
  rw [planStep]
  by_cases hmem : (⟨cat, lastComp fp⟩ : DestPath) ∈ p.fileMoves.map (fun m => m.dest)
  · rw [if_pos hmem]
    have hres := resolveNamingConflict_not_mem ⟨cat, lastComp fp⟩ _ hmem
    simp only [List.map_append, List.map_cons, List.map_nil]
    rw [List.nodup_append]
    exact ⟨h, List.nodup_singleton _, by simpa [List.disjoint_singleton] using hres⟩
  · rw [if_neg hmem]
    simp only [List.map_append, List.map_cons, List.map_nil]
    rw [List.nodup_append]
    exact ⟨h, List.nodup_singleton _, by simpa [List.disjoint_singleton] using hmem⟩

theorem createPlan_fold_nodup (cls : List (List String × String)) :
    ∀ p : TransformationPlan, (p.fileMoves.map (fun m => m.dest)).Nodup →
      (((cls.foldl (fun p q => planStep p q.1 q.2) p).fileMoves).map (fun m => m.dest)).Nodup := by
  induction cls with
  | nil => intro p h; exact h
  | cons q rest ih =>
    intro p h
    rw [List.foldl_cons]
    exact ih _ (planStep_nodup p q.1 q.2 h)

/-- C2: No collisions — for every input batch of classified files (in
particular for every plan `dss_autoformat.py` generates over one run's
discovered files), the destination paths of the plan's move entries are
pairwise distinct; the conflict resolver, consulted against the
destinations already committed in the plan, guarantees it. -/
theorem plan_dest_paths_nodup (cls : List (List String × String))
    (ignorePatterns : List String) (rules : List (String × List String))
    (useLLM hasClient : Bool) (jsonCells : String → Option (List String))
    (llmResponse : List String → Option String) (rootParts : List String)
    (tree : List SrcFile) :
    (((createTransformationPlan cls).fileMoves).map (fun m => m.dest)).Nodup ∧
    (((autoformatPlan ignorePatterns rules useLLM hasClient jsonCells llmResponse
        rootParts tree).fileMoves).map (fun m => m.dest)).Nodup :=
  ⟨createPlan_fold_nodup cls ⟨[], []⟩ (by simp),
   createPlan_fold_nodup _ ⟨[], []⟩ (by simp)⟩

/-- C5: the conflict-resolution scheme of one planning step.  A file
whose proposed destination is not yet planned keeps its original name
and adds no conflict entry; a colliding file gets the suffix `_N`
appended between stem and extension for the least `N = 1, 2, 3, …`
whose candidate is unused, and the resolution is recorded in the plan's
conflicts list (never silent). -/
theorem conflict_resolution_scheme (p : TransformationPlan) (fp : List String) (cat : String) :
    ((⟨cat, lastComp fp⟩ : DestPath) ∉ p.fileMoves.map (fun m => m.dest) →
      planStep p fp cat =
        { fileMoves := p.fileMoves ++ [⟨fp, ⟨cat, lastComp fp⟩, cat⟩]
          conflicts := p.conflicts }) ∧
    ((⟨cat, lastComp fp⟩ : DestPath) ∈ p.fileMoves.map (fun m => m.dest) →
      ∃ N, 1 ≤ N ∧
        (∀ M, 1 ≤ M → M < N →
          conflictCand cat (splitNameChars (lastComp fp).data).1
              (splitNameChars (lastComp fp).data).2 M ∈ p.fileMoves.map (fun m => m.dest)) ∧
        conflictCand cat (splitNameChars (lastComp fp).data).1
            (splitNameChars (lastComp fp).data).2 N ∉ p.fileMoves.map (fun m => m.dest) ∧
        planStep p fp cat =
          { fileMoves := p.fileMoves ++
              [⟨fp, conflictCand cat (splitNameChars (lastComp fp).data).1
                  (splitNameChars (lastComp fp).data).2 N, cat⟩]
            conflicts := p.conflicts ++
              [(fp, conflictCand cat (splitNameChars (lastComp fp).data).1
                  (splitNameChars (lastComp fp).data).2 N)] }) := by
  constructor
  · intro hmem
    rw [planStep, if_neg hmem]
  · intro hmem
    obtain ⟨N, hN1, hN2, hN3, hN4⟩ :=
      resolveNamingConflict_spec ⟨cat, lastComp fp⟩ (p.fileMoves.map (fun m => m.dest)) hmem
    refine ⟨N, hN1, hN3, hN2, ?_⟩
    rw [planStep, if_pos hmem, hN4]

/-- C5 witness: a plan already holding `docs/notes.md`; a second
`notes.md` is resolved to `docs/notes_1.md` with a recorded conflict,
while the first `notes.md` (planned into an empty plan) kept its name. -/
theorem conflict_resolution_scheme_witness :
    planStep ⟨[⟨["a", "notes.md"], ⟨"docs", "notes.md"⟩, "docs"⟩], []⟩ ["b", "notes.md"] "docs" =
      { fileMoves := [⟨["a", "notes.md"], ⟨"docs", "notes.md"⟩, "docs"⟩,
                      ⟨["b", "notes.md"], ⟨"docs", "notes_1.md"⟩, "docs"⟩]
        conflicts := [(["b", "notes.md"], ⟨"docs", "notes_1.md"⟩)] } ∧
    planStep ⟨[], []⟩ ["a", "notes.md"] "docs" =
      { fileMoves := [⟨["a", "notes.md"], ⟨"docs", "notes.md"⟩, "docs"⟩]
        conflicts := [] } := by
  constructor
  · obtain ⟨N, hN1, hN3, hN2, hN4⟩ :=
      (conflict_resolution_scheme ⟨[⟨["a", "notes.md"], ⟨"docs", "notes.md"⟩, "docs"⟩], []⟩
        ["b", "notes.md"] "docs").2 (by decide)
    have hN : N = 1 := by
      by_contra hne
      have h2 := hN3 1 (le_refl 1) (by omega)
      revert h2
      decide
    rw [hN] at hN4
    rw [hN4]
    decide
  · exact (conflict_resolution_scheme ⟨[], []⟩ ["a", "notes.md"] "docs").1 (by decide)

/-- C10 counterexample: for the proposed destination `docs/foo.`
(a name ending in a dot, whose pathlib extension is empty) colliding
with itself, the resolver returns `docs/foo._1`, whose pathlib extension
is `._1` — not the proposed path's extension — and whose pathlib stem is
`foo`, not the proposed stem plus `_1`. -/
theorem resolver_changes_extension_example :
    resolveNamingConflict ⟨"docs", "foo."⟩ [⟨"docs", "foo."⟩] = ⟨"docs", "foo._1"⟩ ∧
    suffixOf (resolveNamingConflict ⟨"docs", "foo."⟩ [⟨"docs", "foo."⟩]).name ≠ suffixOf "foo." ∧
    stemOf (resolveNamingConflict ⟨"docs", "foo."⟩ [⟨"docs", "foo."⟩]).name ≠
      stemOf "foo." ++ "_1" := by
  decide

/-- C10 (amended): the resolver changes only the file's stem, provided
the proposed file name does not end with a dot: the parent directory is
always preserved (never a different category folder), and on a collision
the resolved name is exactly the proposed stem, one `_N` suffix (never
stacked), then the proposed extension — so the resolved path's pathlib
stem is `stem_N` and its extension equals the proposed one.  For names
ending in a dot the extension can change (see the counterexample). -/
theorem resolver_frame_properties (d : DestPath) (used : List DestPath)
    (hmem : d ∈ used) (hdot : d.name.data.getLast? ≠ some '.') :
    (resolveNamingConflict d used).parent = d.parent ∧
    ∃ N, 1 ≤ N ∧
      (resolveNamingConflict d used).name =
        String.mk ((splitNameChars d.name.data).1 ++ '_' ::
          (natToDecimalChars N ++ (splitNameChars d.name.data).2)) ∧
      splitNameChars (resolveNamingConflict d used).name.data =
        ((splitNameChars d.name.data).1 ++ '_' :: natToDecimalChars N,
         (splitNameChars d.name.data).2) := by
  refine ⟨resolveNamingConflict_parent d used, ?_⟩
  obtain ⟨N, hN1, _, _, hN4⟩ := resolveNamingConflict_spec d used hmem
  refine ⟨N, hN1, ?_, ?_⟩
  · rw [hN4]; rfl
  · rw [hN4]
    exact splitNameChars_insert d.name.data N hdot

/-- C10 witness: `docs/notes.md` colliding with itself resolves within
`docs/`, to stem `notes_N` and the unchanged extension `.md`. -/
theorem resolver_frame_properties_witness :
    (resolveNamingConflict ⟨"docs", "notes.md"⟩ [⟨"docs", "notes.md"⟩]).parent =
      (⟨"docs", "notes.md"⟩ : DestPath).parent ∧
    ∃ N, 1 ≤ N ∧
      (resolveNamingConflict ⟨"docs", "notes.md"⟩ [⟨"docs", "notes.md"⟩]).name =
        String.mk ((splitNameChars ("notes.md" : String).data).1 ++ '_' ::
          (natToDecimalChars N ++ (splitNameChars ("notes.md" : String).data).2)) ∧
      splitNameChars (resolveNamingConflict ⟨"docs", "notes.md"⟩
          [⟨"docs", "notes.md"⟩]).name.data =
        ((splitNameChars ("notes.md" : String).data).1 ++ '_' :: natToDecimalChars N,
         (splitNameChars ("notes.md" : String).data).2) :=
  resolver_frame_properties ⟨"docs", "notes.md"⟩ [⟨"docs", "notes.md"⟩] (by decide) (by decide)

theorem convertStep_plan_mem (cfg : ConvCfg) (rootParts : List String) (force : Bool)
    (st : ConvState) (f : SrcFile) (e : ConvEntry)
    (he : e ∈ (convertStep cfg rootParts force st f).plan) :
    e ∈ st.plan ∨ (convSkip cfg rootParts f = false ∧ e.rel = f.rel) := by
  by_cases hc : convSkip cfg rootParts f = true
  · left
    have : convertStep cfg rootParts force st f = st := by
      simp only [convertStep]
      rw [if_pos (by simpa [convSkip] using hc)]
    rwa [this] at he
  · have hcf : convSkip cfg rootParts f = false := by
      cases h : convSkip cfg rootParts f
      · rfl
      · exact absurd h hc
    have hraw : ((cfg.ignore.any fun p => pathMatch f.rel p) ||
        (rootParts ++ f.rel).any fun part => pyStartsWith part ".") = false := hcf
    simp only [convertStep] at he
    rw [if_neg (by rw [hraw]; simp)] at he
    simp only [List.mem_append, List.mem_singleton] at he
    rcases he with he | he
    · left; exact he
    · right; exact ⟨hcf, by rw [he]⟩

theorem convert_fold_plan_mem (cfg : ConvCfg) (rootParts : List String) (force : Bool) :
    ∀ (tree : List SrcFile) (st : ConvState) (e : ConvEntry),
      e ∈ (tree.foldl (convertStep cfg rootParts force) st).plan →
      e ∈ st.plan ∨ ∃ f ∈ tree, convSkip cfg rootParts f = false ∧ e.rel = f.rel := by
  intro tree
  induction tree with
  | nil => intro st e he; left; exact he
  | cons f rest ih =>
    intro st e he
    rw [List.foldl_cons] at he
    rcases ih _ e he with h | ⟨g, hg, h1, h2⟩
    · rcases convertStep_plan_mem cfg rootParts force st f e h with h | ⟨h1, h2⟩
      · left; exact h
      · right; exact ⟨f, List.mem_cons_self f rest, h1, h2⟩
    · right; exact ⟨g, List.mem_cons_of_mem f hg, h1, h2⟩

theorem stubReadme_plan (sub : String) (st : ConvState) :
    (stubReadme sub st).plan = st.plan := by
  rw [stubReadme]
  split <;> rfl

theorem readmes_fold_plan : ∀ (subs : List String) (st : ConvState),
    (subs.foldl (fun st sub => stubReadme sub st) st).plan = st.plan := by
  intro subs
  induction subs with
  | nil => intro st; rfl
  | cons s rest ih =>
    intro st
    rw [List.foldl_cons, ih, stubReadme_plan]

theorem convert_plan_eq (cfg : ConvCfg) (rootParts : List String) (tree : List SrcFile)
    (force : Bool) (fs0 : List (String × String)) :
    (convert cfg rootParts tree force fs0).plan =
      (tree.foldl (convertStep cfg rootParts force) ⟨fs0, 0, []⟩).plan := by
  simp only [convert]
  split <;> simp [readmes_fold_plan]

/-- Every file in a `convert` run's plan comes from a non-skipped tree
entry. -/
theorem convert_plan_sources (cfg : ConvCfg) (rootParts : List String) (tree : List SrcFile)
    (force : Bool) (fs0 : List (String × String)) (e : ConvEntry)
    (he : e ∈ (convert cfg rootParts tree force fs0).plan) :
    ∃ f ∈ tree, convSkip cfg rootParts f = false ∧ e.rel = f.rel := by
  rw [convert_plan_eq] at he
  rcases convert_fold_plan_mem cfg rootParts force tree ⟨fs0, 0, []⟩ e he with h | h
  · simp at h
  · exact h

theorem planStep_src_mem (p : TransformationPlan) (fp : List String) (cat : String)
    (e : MoveEntry) (he : e ∈ (planStep p fp cat).fileMoves) :
    e ∈ p.fileMoves ∨ e.src = fp := by
  rw [planStep] at he
  by_cases hmem : (⟨cat, lastComp fp⟩ : DestPath) ∈ p.fileMoves.map (fun m => m.dest)
  · rw [if_pos hmem] at he
    simp only [List.mem_append, List.mem_singleton] at he
    rcases he with he | he
    · left; exact he
    · right; rw [he]
  · rw [if_neg hmem] at he
    simp only [List.mem_append, List.mem_singleton] at he
    rcases he with he | he
    · left; exact he
    · right; rw [he]

theorem createPlan_fold_src_mem (cls : List (List String × String)) :
    ∀ (p : TransformationPlan) (e : MoveEntry),
      e ∈ (cls.foldl (fun p q => planStep p q.1 q.2) p).fileMoves →
      e ∈ p.fileMoves ∨ ∃ q ∈ cls, e.src = q.1 := by
  induction cls with
  | nil => intro p e he; left; exact he
  | cons q rest ih =>
    intro p e he
    rw [List.foldl_cons] at he
    rcases ih _ e he with h | ⟨q2, hq2, h2⟩
    · rcases planStep_src_mem p q.1 q.2 e h with h | h
      · left; exact h
      · right; exact ⟨q, List.mem_cons_self q rest, h⟩
    · right; exact ⟨q2, List.mem_cons_of_mem q hq2, h2⟩

/-- Every move of an `autoformatPlan` originates from a discovered
(hence non-ignored) file of the tree. -/
theorem autoformatPlan_sources (ignorePatterns : List String)
    (rules : List (String × List String)) (useLLM hasClient : Bool)
    (jsonCells : String → Option (List String)) (llmResponse : List String → Option String)
    (rootParts : List String) (tree : List SrcFile) (m : MoveEntry)
    (hm : m ∈ (autoformatPlan ignorePatterns rules useLLM hasClient jsonCells llmResponse
        rootParts tree).fileMoves) :
    ∃ f ∈ tree, shouldIgnoreFile ignorePatterns (rootParts ++ f.rel) = false ∧
      m.src = f.rel := by
  rw [autoformatPlan, createTransformationPlan] at hm
  rcases createPlan_fold_src_mem _ ⟨[], []⟩ m hm with h | ⟨q, hq, hsrc⟩
  · simp at h
  · rw [classifyFiles] at hq
    simp only [List.mem_map] at hq
    obtain ⟨fi, hfi, hq1⟩ := hq
    rw [discoverFiles] at hfi
    simp only [List.mem_map, List.mem_filter] at hfi
    obtain ⟨f, ⟨hf, hfign⟩, hfi2⟩ := hfi
    refine ⟨f, hf, by simpa using hfign, ?_⟩
    rw [hsrc, ← hq1, ← hfi2]

/-! ## `Path.match` against the absolute path -/

theorem zip_append_left {α β : Type} (a b : List α) (c : List β) (h : c.length ≤ a.length) :
    (a ++ b).zip c = a.zip c := by
  induction c generalizing a with
  | nil => simp
  | cons x c ih =>
    cases a with
    | nil => simp at h
    | cons y a =>
      simp only [List.cons_append, List.zip_cons_cons, List.cons.injEq, true_and]
      exact ih a (by simpa using h)

/-- A relative pattern that matches the relative path also matches the
absolute path: `Path.match` is right-anchored, and the extra root
components on the left cannot disturb the matched tail. -/
theorem pathMatch_append_left (root rel : List String) (pat : String)
    (h : pathMatch rel pat = true) : pathMatch (root ++ rel) pat = true := by
  simp only [pathMatch] at h ⊢
  by_cases hlen : (patternParts pat).length > rel.length
  · rw [if_pos hlen] at h
    exact absurd h (by simp)
  · rw [if_neg hlen] at h
    have hle : (patternParts pat).length ≤ rel.length := by omega
    rw [if_neg (by simp [List.length_append]; omega)]
    rw [List.reverse_append, zip_append_left _ _ _ (by simpa using hle)]
    exact h

/-- C7 counterexample: with `ignore=["**/*.log"]` and a top-level
`debug.log`, the spec's example fails on `convert_to_dss.py`: under
Python's `Path.match`, `"debug.log"` does not match the two-component
pattern `"**/*.log"`, so `debug.log` is *not* absent from the plan — it
is planned (into `meta/misc/`, since `.log` is in no class map). -/
theorem toplevel_log_in_convert_plan :
    pathMatch ["debug.log"] "**/*.log" = false ∧
    (convert { defaultConvCfg with ignore := ["**/*.log"] } ["repo"] [⟨["debug.log"], "log"⟩]
        false []).plan =
      [⟨["debug.log"], ["meta", "misc"], "debug.log", "misc"⟩] := by
  decide

/-- C7 (amended): a source file whose *relative path matches* an ignore
pattern (under Python's right-anchored `Path.match`, where `**` matches
exactly one component) is excluded from the run: it appears in no entry
of `convert`'s plan, and in no move of `dss_autoformat`'s plan (there
matching is done against the absolute path, which a relative-path match
implies).  A top-level `debug.log` does not match `**/*.log` and stays
in `convert`'s plan (see the counterexample); a nested `logs/debug.log`
does match and is absent. -/
theorem ignore_matching_excluded (cfg : ConvCfg) (rootParts : List String)
    (tree : List SrcFile) (rel : List String) (pat : String) (force : Bool)
    (fs0 : List (String × String)) (ignorePatterns : List String)
    (rules : List (String × List String)) (useLLM hasClient : Bool)
    (jsonCells : String → Option (List String)) (llmResponse : List String → Option String)
    (rootParts2 : List String) (tree2 : List SrcFile)
    (hpat : pat ∈ cfg.ignore) (hmatch : pathMatch rel pat = true)
    (hpat2 : pat ∈ ignorePatterns) :
    (∀ e ∈ (convert cfg rootParts tree force fs0).plan, e.rel ≠ rel) ∧
    (∀ m ∈ (autoformatPlan ignorePatterns rules useLLM hasClient jsonCells llmResponse
        rootParts2 tree2).fileMoves, m.src ≠ rel) ∧
    (convert { defaultConvCfg with ignore := ["**/*.log"] } ["repo"]
        [⟨["logs", "debug.log"], "log"⟩] false []).plan = [] := by
  refine ⟨?_, ?_, by decide⟩
  · intro e he hrel
    obtain ⟨f, _, hskip, herel⟩ := convert_plan_sources cfg rootParts tree force fs0 e he
    have hfrel : f.rel = rel := by rw [← herel, hrel]
    have : cfg.ignore.any (fun p => pathMatch f.rel p) = true :=
      List.any_eq_true.mpr ⟨pat, hpat, by rw [hfrel]; exact hmatch⟩
    rw [convSkip, this] at hskip
    simp at hskip
  · intro m hm hrel
    obtain ⟨f, _, hign, hsrc⟩ := autoformatPlan_sources ignorePatterns rules useLLM hasClient
      jsonCells llmResponse rootParts2 tree2 m hm
    have hfrel : f.rel = rel := by rw [← hsrc, hrel]
    have : shouldIgnoreFile ignorePatterns (rootParts2 ++ f.rel) = true := by
      rw [shouldIgnoreFile]
      exact List.any_eq_true.mpr
        ⟨pat, hpat2, by rw [hfrel]; exact pathMatch_append_left rootParts2 rel pat hmatch⟩
    rw [this] at hign
    simp at hign

/-- C7 witness: `logs/debug.log` matches the configured `**/*.log` and
appears neither in the convert plan nor in the autoformat plan. -/
theorem ignore_matching_excluded_witness :
    (∀ e ∈ (convert { defaultConvCfg with ignore := ["**/*.log"] } ["repo"]
        [⟨["logs", "debug.log"], "log"⟩, ⟨["app.py"], "x = 1"⟩] false []).plan,
      e.rel ≠ ["logs", "debug.log"]) ∧
    (∀ m ∈ (autoformatPlan ["**/*.log"] defaultClassificationRules false false
        (fun _ => none) (fun _ => none) ["repo"]
        [⟨["logs", "debug.log"], "log"⟩, ⟨["app.py"], "x = 1"⟩]).fileMoves,
      m.src ≠ ["logs", "debug.log"]) ∧
    (convert { defaultConvCfg with ignore := ["**/*.log"] } ["repo"]
        [⟨["logs", "debug.log"], "log"⟩] false []).plan = [] :=
  ignore_matching_excluded { defaultConvCfg with ignore := ["**/*.log"] } ["repo"]
    [⟨["logs", "debug.log"], "log"⟩, ⟨["app.py"], "x = 1"⟩] ["logs", "debug.log"] "**/*.log"
    false [] ["**/*.log"] defaultClassificationRules false false (fun _ => none) (fun _ => none)
    ["repo"] [⟨["logs", "debug.log"], "log"⟩, ⟨["app.py"], "x = 1"⟩]
    (by decide) (by decide) (by decide)

/-- C8 counterexample: `.hidden/data.txt` has a path segment starting
with a dot, yet `dss_autoformat.py` does not exclude it: none of its
default ignore globs matches (only dot-named *basenames* and a fixed
list of dot-directories are covered), so the file is classified and
planned (as `docs/data.txt`). -/
theorem dot_dir_file_in_autoformat_plan :
    pyStartsWith ".hidden" "." = true ∧
    shouldIgnoreFile defaultIgnorePatterns ["repo", ".hidden", "data.txt"] = false ∧
    (autoformatPlan defaultIgnorePatterns defaultClassificationRules false false
        (fun _ => none) (fun _ => none) ["repo"] [⟨[".hidden", "data.txt"], "hello"⟩]).fileMoves =
      [⟨[".hidden", "data.txt"], ⟨"docs", "data.txt"⟩, "docs"⟩] := by
  decide

/-- C8 (amended): in `convert_to_dss.py`, every source file with any
path segment starting with `.` (including segments of the source root
itself, whose parts the check also sees) is skipped before
classification and appears in no plan entry.  `dss_autoformat.py` has no
such check — it only applies its ignore globs, so a normally-named file
inside an unlisted dot-directory is classified and planned (see the
counterexample). -/
theorem convert_dot_segment_excluded (cfg : ConvCfg) (rootParts : List String)
    (tree : List SrcFile) (rel : List String) (force : Bool)
    (fs0 : List (String × String))
    (hdot : (rootParts ++ rel).any (fun part => pyStartsWith part ".") = true) :
    ∀ e ∈ (convert cfg rootParts tree force fs0).plan, e.rel ≠ rel := by
  intro e he hrel
  obtain ⟨f, _, hskip, herel⟩ := convert_plan_sources cfg rootParts tree force fs0 e he
  have hfrel : f.rel = rel := by rw [← herel, hrel]
  rw [convSkip, hfrel, hdot] at hskip
  simp at hskip

/-- C8 witness: `.hidden/data.txt` is excluded from a `convert` plan
that does process a sibling `app.py`. -/
theorem convert_dot_segment_excluded_witness :
    ((convert defaultConvCfg ["repo"]
        [⟨[".hidden", "data.txt"], "hello"⟩, ⟨["app.py"], "x = 1"⟩] false []).plan).all
      (fun e => decide (e.rel ≠ [".hidden", "data.txt"])) = true := by
  apply List.all_eq_true.mpr
  intro e he
  simpa using convert_dot_segment_excluded defaultConvCfg ["repo"]
    [⟨[".hidden", "data.txt"], "hello"⟩, ⟨["app.py"], "x = 1"⟩] [".hidden", "data.txt"]
    false [] (by decide) e he

/-- C4 counterexample: `convert_to_dss.py`'s terminal classification of
an unknown extension is `"misc"`, not `"src"`: a source `weird.xyz` is
planned into `meta/misc/weird.xyz`, not under `src/`. -/
theorem unknown_ext_convert_not_src :
    classify "weird.xyz" defaultClassMap = "misc" ∧
    (convert defaultConvCfg ["repo"] [⟨["weird.xyz"], "stuff"⟩] false []).plan =
      [⟨["weird.xyz"], ["meta", "misc"], "weird.xyz", "misc"⟩] ∧
    ("misc" : String) ≠ "src" := by
  decide

/-- C4 (amended): the two scripts diverge on unknown extensions.  In
`dss_autoformat.py` the terminal fallback assigns `src` to every
extension outside its tables, and the plan places `weird.xyz` at
`src/weird.xyz`; in `convert_to_dss.py` an extension outside the class
map is classified `misc` and the file is placed under
`meta/misc/` (e.g. `meta/misc/weird.xyz`). -/
theorem extension_fallback_split_behavior (f : FileInfo)
    (h : strLower f.extension ∉
      ([".py", ".js", ".ts", ".java", ".cpp", ".c", ".md", ".rst", ".txt",
        ".csv", ".json", ".xml", ".parquet", ".yml", ".yaml", ".toml", ".ini"] : List String)) :
    classifyFallback f = "src" ∧
    (autoformatPlan defaultIgnorePatterns defaultClassificationRules false false
        (fun _ => none) (fun _ => none) ["repo"] [⟨["weird.xyz"], "stuff"⟩]).fileMoves =
      [⟨["weird.xyz"], ⟨"src", "weird.xyz"⟩, "src"⟩] ∧
    classify "weird.xyz" defaultClassMap = "misc" ∧
    (convert defaultConvCfg ["repo"] [⟨["weird.xyz"], "stuff"⟩] false []).plan =
      [⟨["weird.xyz"], ["meta", "misc"], "weird.xyz", "misc"⟩] := by
  have s1 : ∀ x ∈ ([".py", ".js", ".ts", ".java", ".cpp", ".c"] : List String),
      x ∈ ([".py", ".js", ".ts", ".java", ".cpp", ".c", ".md", ".rst", ".txt",
        ".csv", ".json", ".xml", ".parquet", ".yml", ".yaml", ".toml", ".ini"] : List String) := by
    decide
  have s2 : ∀ x ∈ ([".md", ".rst", ".txt"] : List String),
      x ∈ ([".py", ".js", ".ts", ".java", ".cpp", ".c", ".md", ".rst", ".txt",
        ".csv", ".json", ".xml", ".parquet", ".yml", ".yaml", ".toml", ".ini"] : List String) := by
    decide
  have s3 : ∀ x ∈ ([".csv", ".json", ".xml", ".parquet"] : List String),
      x ∈ ([".py", ".js", ".ts", ".java", ".cpp", ".c", ".md", ".rst", ".txt",
        ".csv", ".json", ".xml", ".parquet", ".yml", ".yaml", ".toml", ".ini"] : List String) := by
    decide
  have s4 : ∀ x ∈ ([".yml", ".yaml", ".toml", ".ini"] : List String),
      x ∈ ([".py", ".js", ".ts", ".java", ".cpp", ".c", ".md", ".rst", ".txt",
        ".csv", ".json", ".xml", ".parquet", ".yml", ".yaml", ".toml", ".ini"] : List String) := by
    decide
  refine ⟨?_, by decide, by decide, by decide⟩
  rw [classifyFallback]
  split_ifs with h1 h2 h3 h4
  · exact absurd (s1 _ h1) h
  · exact absurd (s2 _ h2) h
  · exact absurd (s3 _ h3) h
  · exact absurd (s4 _ h4) h
  · rfl

/-- C4 witness: a file with extension `.xyz`. -/
theorem extension_fallback_split_behavior_witness :
    classifyFallback ⟨["weird.xyz"], ".xyz", "stuff"⟩ = "src" ∧
    (autoformatPlan defaultIgnorePatterns defaultClassificationRules false false
        (fun _ => none) (fun _ => none) ["repo"] [⟨["weird.xyz"], "stuff"⟩]).fileMoves =
      [⟨["weird.xyz"], ⟨"src", "weird.xyz"⟩, "src"⟩] ∧
    classify "weird.xyz" defaultClassMap = "misc" ∧
    (convert defaultConvCfg ["repo"] [⟨["weird.xyz"], "stuff"⟩] false []).plan =
      [⟨["weird.xyz"], ["meta", "misc"], "weird.xyz", "misc"⟩] :=
  extension_fallback_split_behavior ⟨["weird.xyz"], ".xyz", "stuff"⟩ (by decide)

/-- C6 counterexample: in `_execute_transformation` the `try` wraps the
whole copy loop, so when the first file's copy raises, the error is
caught at plan level, execution returns failure, and the second file of
the plan is never copied — the remainder of the plan is *not*
processed. -/
theorem copy_error_aborts_plan_example :
    executeTransformation false failFirstOracle
        [⟨["a.txt"], ⟨"docs", "a.txt"⟩, "docs"⟩, ⟨["b.txt"], ⟨"docs", "b.txt"⟩, "docs"⟩] =
      (false, []) ∧
    (⟨["b.txt"], ⟨"docs", "b.txt"⟩, "docs"⟩ : MoveEntry) ∉
      (executeTransformation false failFirstOracle
        [⟨["a.txt"], ⟨"docs", "a.txt"⟩, "docs"⟩,
         ⟨["b.txt"], ⟨"docs", "b.txt"⟩, "docs"⟩]).2 := by
  decide

theorem execGo_spec (copyRes : MoveEntry → Except String Unit) :
    ∀ (ms done : List MoveEntry),
      execGo copyRes ms done =
        (ms.all (fun m => isOkB (copyRes m)),
         done ++ ms.takeWhile (fun m => isOkB (copyRes m))) := by
  intro ms
  induction ms with
  | nil => intro done; simp [execGo]
  | cons m rest ih =>
    intro done
    cases hc : copyRes m with
    | ok u => simp [execGo, hc, ih, isOkB]
    | error e => simp [execGo, hc, isOkB]

/-- C6 (amended): during plan execution a file's copy error is caught
at plan granularity, not per file: execution copies exactly the longest
error-free prefix of the plan, stops at the first failing file, and
reports overall failure; the files after the failure are not processed
(in `convert_to_dss.py` the same error is not caught at all and
propagates). -/
theorem execute_transformation_error_semantics (copyRes : MoveEntry → Except String Unit)
    (moves : List MoveEntry) :
    executeTransformation false copyRes moves =
      (moves.all (fun m => isOkB (copyRes m)),
       moves.takeWhile (fun m => isOkB (copyRes m))) := by
  rw [executeTransformation, if_neg (by simp), execGo_spec]
  simp

/-- C3: the idempotence contract fails in `convert_to_dss.py` — the
double-injection guard checks `startswith("---")`, but the `.py`
injection wraps the front-matter block in triple quotes, so a second run
over an unchanged source and populated destination re-injects the block:
it performs file writes (the `.py` rewrite plus the unconditional
manifest write) and leaves `src/a.py` different from its state after
the first run. -/
theorem convert_second_run_rewrites_py :
    (convert defaultConvCfg ["repo"] [⟨["a.py"], "x = 1"⟩] false
        (convert defaultConvCfg ["repo"] [⟨["a.py"], "x = 1"⟩] false []).fs).writes = 2 ∧
    fsGet (convert defaultConvCfg ["repo"] [⟨["a.py"], "x = 1"⟩] false
        (convert defaultConvCfg ["repo"] [⟨["a.py"], "x = 1"⟩] false []).fs).fs "src/a.py" ≠
      fsGet (convert defaultConvCfg ["repo"] [⟨["a.py"], "x = 1"⟩] false []).fs "src/a.py" ∧
    pyStartsWith ((fsGet (convert defaultConvCfg ["repo"] [⟨["a.py"], "x = 1"⟩] false []).fs
        "src/a.py").getD "") "\"\"\"" = true := by
  decide

/-- C9: override precedence is not implemented in the program flow.
`transform_filename` itself does honor an `overrides` entry (first
conjunct), but `main` never populates the file mapping it would be
applied to (the population step is an unimplemented comment), so with
`overrides={"scripts/run.py": "main_runner.py"}` the file is placed at
`src/run.py`, and `src/main_runner.py` is never created. -/
theorem overrides_not_applied_in_main :
    transformFilename ["scripts", "run.py"] (some runOverrides) = "main_runner.py" ∧
    (convertMain defaultConvCfg (some runOverrides) ["repo"]
        [⟨["scripts", "run.py"], "print(1)"⟩] false true []).plan =
      [⟨["scripts", "run.py"], ["src"], "run.py", "src"⟩] ∧
    fsGet (convertMain defaultConvCfg (some runOverrides) ["repo"]
        [⟨["scripts", "run.py"], "print(1)"⟩] false true []).fs "src/main_runner.py" = none ∧
    (fsGet (convertMain defaultConvCfg (some runOverrides) ["repo"]
        [⟨["scripts", "run.py"], "print(1)"⟩] false true []).fs "src/run.py").isSome = true := by
  decide

end DSS
